import Mathlib

/-!
Verification of the move-tracking engine of `obj_loc` (ghc-utils).

The engine parses a gdb-generated trace of GC relocation events into an
ordered sequence of eras (`GC` records, each with a forward and a backward
move map) and answers location queries by forward/backward traversal
(`find_moves`).

Addresses are 64-bit values used only for equality, so they are embedded as
`Nat`.  The per-era `HashMap`s are embedded as association lists with
first-match lookup; `insert_new` refuses a duplicate key, so the lists it
builds are duplicate-free and behave exactly like the hash maps.  Fatal
conditions (`assert!` failures in the source) are embedded as `none`:
`parse` returns `Option (List GC)`.

The text-lexing layer (the `>>> ` prefix, `split_whitespace`, hex parsing)
is the Trace Reader collaborator; the embedding starts from the lexed line
stream: a line is an era-boundary marker `GC <flag>`, a relocation record
`from -> to size: <n>`, or an ignored line.
-/

/-- Addresses are opaque 64-bit values compared only for equality. -/
abbrev Addr := Nat

/-- The value stored in a move map: the other end of the move and the
object size (`struct AddrSize` in the source). -/
structure AddrSize where
  addr : Addr
  size : Nat
deriving DecidableEq, Repr

/-- One era (`struct GC`): the major flag and the bidirectional move maps. -/
structure GC where
  major : Bool
  moves_fwd : List (Addr × AddrSize)
  moves_bwd : List (Addr × AddrSize)
deriving DecidableEq, Repr

/-- `GC::new`. -/
def GC.new (major : Bool) : GC :=
  { major := major, moves_fwd := [], moves_bwd := [] }

/-- One query result (`struct Moves`): the queried location, the first era
of the chain, and the chain of addresses. -/
structure Moves where
  loc : Addr
  first_move : Nat
  moves : List Addr
deriving DecidableEq, Repr

/-- `HashMap::get` on the association-list embedding of a move map. -/
def find (m : List (Addr × AddrSize)) (k : Addr) : Option AddrSize :=
  match m with
  | [] => none
  | (k₁, v) :: rest => if k = k₁ then some v else find rest k

/-- `insert_new`: `HashMap::insert` followed by `assert!(ret.is_none())`.
A duplicate key is the fatal case, embedded as `none`. -/
def insert_new (m : List (Addr × AddrSize)) (k : Addr) (v : AddrSize) :
    Option (List (Addr × AddrSize)) :=
  match find m k with
  | some _ => none
  | none => some ((k, v) :: m)

/-- A lexed trace line: an era boundary `GC <flag>` (major when the flag
is `1`), a relocation record `from -> to size: <size>`, or a line without
the `>>> ` prefix, which `parse` skips. -/
inductive TraceLine where
  | gcMark (flag : Nat)
  | reloc (source dest size : Nat)
  | other
deriving DecidableEq, Repr

/-- Is the line an era-boundary marker? -/
def isBoundary : TraceLine → Bool
  | TraceLine.gcMark _ => true
  | _ => false

/-- The loop of `parse`: the accumulated sealed eras and the current open
era are threaded through; any `assert!` failure yields `none`. -/
def parse_go : List TraceLine → List GC → Option GC → Option (List GC)
  | [], gcs, cur => some (gcs ++ cur.toList)
  | TraceLine.gcMark flag :: rest, gcs, cur =>
      parse_go rest (gcs ++ cur.toList) (some (GC.new (flag == 1)))
  | TraceLine.reloc f t s :: rest, gcs, cur =>
      match cur with
      | none => none
      | some gc =>
          match insert_new gc.moves_fwd f ⟨t, s⟩ with
          | none => none
          | some fwd =>
              match insert_new gc.moves_bwd t ⟨f, s⟩ with
              | none => none
              | some bwd =>
                  parse_go rest gcs
                    (some { gc with moves_fwd := fwd, moves_bwd := bwd })
  | TraceLine.other :: rest, gcs, cur => parse_go rest gcs cur

/-- `parse`: build the era store from the lexed trace. -/
def parse (lines : List TraceLine) : Option (List GC) :=
  parse_go lines [] none

/-- `follow_fwd`: push the forward image of `addr` era by era, stopping at
the first era whose forward map has no entry for `addr`. -/
def follow_fwd (gcs : List GC) (addr : Addr) : List Addr :=
  match gcs with
  | [] => []
  | gc :: rest =>
      match find gc.moves_fwd addr with
      | none => []
      | some next => next.addr :: follow_fwd rest addr

/-- The loop of `follow_bwd`, iterating the already-reversed era list. -/
def follow_bwd_go (gcs : List GC) (addr : Addr) : List Addr :=
  match gcs with
  | [] => []
  | gc :: rest =>
      match find gc.moves_bwd addr with
      | none => []
      | some prev => prev.addr :: follow_bwd_go rest addr

/-- `follow_bwd`: like `follow_fwd` but over the backward maps, iterating
the eras from newest to oldest. -/
def follow_bwd (gcs : List GC) (addr : Addr) : List Addr :=
  follow_bwd_go gcs.reverse addr

/-- The loop of `find_moves`: `pre` is the slice of eras already visited
(`gcs[0..gc_n]`), the second list the remaining eras, and the flag is
`skip_first_case`. -/
def find_moves_go (addr : Addr) : List GC → List GC → Bool → List Moves
  | _, [], _ => []
  | pre, gc :: rest, skip =>
      (if skip then [] else
        match find gc.moves_fwd addr with
        | none => []
        | some next =>
            [{ loc := addr,
               first_move := pre.length - (follow_bwd pre addr).length,
               moves := (follow_bwd pre addr).reverse ++ [addr, next.addr]
                          ++ follow_fwd rest next.addr }])
      ++
      (match find gc.moves_bwd addr with
       | none => find_moves_go addr (pre ++ [gc]) rest false
       | some prev =>
           [{ loc := addr,
              first_move := pre.length - (follow_bwd pre prev.addr).length,
              moves := (follow_bwd pre prev.addr).reverse ++ [prev.addr, addr]
                         ++ follow_fwd rest addr }]
             ++ find_moves_go addr (pre ++ [gc]) rest true)

/-- `find_moves`: all movement chains through `addr`. -/
def find_moves (gcs : List GC) (addr : Addr) : List Moves :=
  find_moves_go addr [] gcs false

/-- The trace of the double-move-in-one-era scenario (`complicated_test`):
one era containing `0x124 -> 0x125` then `0x123 -> 0x124`. -/
def trace_dbl : List TraceLine :=
  [TraceLine.gcMark 1, TraceLine.reloc 0x124 0x125 2, TraceLine.reloc 0x123 0x124 2]

/-- The era store built from `trace_dbl`. -/
def store_dbl : List GC := (parse trace_dbl).getD []

/-- Claim C1: on the trace with a single era containing `0x124 -> 0x125`
and `0x123 -> 0x124`, `find_moves 0x124` returns exactly the two chains
`[0x124, 0x125]` then `[0x123, 0x124]`, both with first era 0;
`find_moves 0x125` returns exactly `[0x124, 0x125]`; and `find_moves
0x123` returns exactly `[0x123, 0x124]`. -/
theorem find_moves_double_move_scenario :
    (parse trace_dbl).isSome = true ∧
    find_moves store_dbl 0x124 =
      [{ loc := 0x124, first_move := 0, moves := [0x124, 0x125] },
       { loc := 0x124, first_move := 0, moves := [0x123, 0x124] }] ∧
    find_moves store_dbl 0x125 =
      [{ loc := 0x125, first_move := 0, moves := [0x124, 0x125] }] ∧
    find_moves store_dbl 0x123 =
      [{ loc := 0x123, first_move := 0, moves := [0x123, 0x124] }] := by
  refine ⟨rfl, rfl, rfl, rfl⟩

/-- The trace of the multi-era scenario (`find_moves_test`): era 1 has
`0x123 -> 0x124`; era 2 has `0x124 -> 0x125` and `0x100 -> 0x101`. -/
def trace_multi : List TraceLine :=
  [TraceLine.gcMark 1, TraceLine.reloc 0x123 0x124 1,
   TraceLine.gcMark 2, TraceLine.reloc 0x124 0x125 2, TraceLine.reloc 0x100 0x101 3]

/-- The era store built from `trace_multi`. -/
def store_multi : List GC := (parse trace_multi).getD []

/-- Claim C3: on the two-era trace (era 1: `0x123 -> 0x124`; era 2:
`0x124 -> 0x125` and `0x100 -> 0x101`), `find_moves` on each of `0x123`,
`0x124`, `0x125` returns exactly one chain `[0x123, 0x124, 0x125]` with
first era 0, and on each of `0x100`, `0x101` exactly one chain
`[0x100, 0x101]` with first era 1. -/
theorem find_moves_multi_era_scenario :
    (parse trace_multi).isSome = true ∧
    find_moves store_multi 0x123 =
      [{ loc := 0x123, first_move := 0, moves := [0x123, 0x124, 0x125] }] ∧
    find_moves store_multi 0x124 =
      [{ loc := 0x124, first_move := 0, moves := [0x123, 0x124, 0x125] }] ∧
    find_moves store_multi 0x125 =
      [{ loc := 0x125, first_move := 0, moves := [0x123, 0x124, 0x125] }] ∧
    find_moves store_multi 0x100 =
      [{ loc := 0x100, first_move := 1, moves := [0x100, 0x101] }] ∧
    find_moves store_multi 0x101 =
      [{ loc := 0x101, first_move := 1, moves := [0x100, 0x101] }] := by
  refine ⟨rfl, rfl, rfl, rfl, rfl, rfl⟩

/-- Claim C2: when the destination case fires at era `e` (the era's
backward map contains the queried address), the iteration continues into
era `e+1` with the skip flag set; with the flag set, era `e+1` contributes
no source-case chain even though its forward map contains the address
(`hsrc`), only its destination-case chain (if any); and the flag passed on
to era `e+2` is determined solely by whether era `e+1`'s own destination
case fired — the flag is reset every era, so the skip applies to era `e+1`
and only to era `e+1`. -/
theorem find_moves_dest_skips_next_source
    (addr : Addr) (pre rest : List GC) (gc gcn : GC) (prev next : AddrSize)
    (hdest : find gc.moves_bwd addr = some prev)
    (hsrc : find gcn.moves_fwd addr = some next) :
    find_moves_go addr pre (gc :: gcn :: rest) false =
      (match find gc.moves_fwd addr with
       | none => []
       | some nx =>
           [{ loc := addr,
              first_move := pre.length - (follow_bwd pre addr).length,
              moves := (follow_bwd pre addr).reverse ++ [addr, nx.addr]
                         ++ follow_fwd (gcn :: rest) nx.addr }])
        ++ ([{ loc := addr,
               first_move := pre.length - (follow_bwd pre prev.addr).length,
               moves := (follow_bwd pre prev.addr).reverse ++ [prev.addr, addr]
                          ++ follow_fwd (gcn :: rest) addr }]
             ++ find_moves_go addr (pre ++ [gc]) (gcn :: rest) true) ∧
    find_moves_go addr (pre ++ [gc]) (gcn :: rest) true =
      (match find gcn.moves_bwd addr with
       | none => []
       | some p =>
           [{ loc := addr,
              first_move := (pre ++ [gc]).length
                              - (follow_bwd (pre ++ [gc]) p.addr).length,
              moves := (follow_bwd (pre ++ [gc]) p.addr).reverse ++ [p.addr, addr]
                         ++ follow_fwd rest addr }])
        ++ find_moves_go addr ((pre ++ [gc]) ++ [gcn]) rest
            (find gcn.moves_bwd addr).isSome := by
  constructor
  · simp only [find_moves_go, hdest, if_false, Bool.false_eq_true]
  · cases hb : find gcn.moves_bwd addr <;>
      simp [find_moves_go, hb]

/-- Concrete eras for instantiating the skip-flag theorem: era A moves
`0x4` to `0x5`, era B moves `0x5` to `0x6`. -/
def gc_dest : GC := { major := false, moves_fwd := [], moves_bwd := [(5, ⟨4, 1⟩)] }

/-- Companion era for `gc_dest`, whose forward map contains the queried
address. -/
def gc_src : GC := { major := false, moves_fwd := [(5, ⟨6, 1⟩)], moves_bwd := [] }

/-- Witness for the skip-flag theorem at a concrete two-era store. -/
theorem find_moves_dest_skips_next_source_witness :
    find gc_dest.moves_bwd 5 = some ⟨4, 1⟩ ∧
    find gc_src.moves_fwd 5 = some ⟨6, 1⟩ ∧
    (find_moves_go 5 [] (gc_dest :: gc_src :: []) false =
       [] ++ ([{ loc := 5, first_move := 0, moves := [4, 5, 6] }]
         ++ find_moves_go 5 ([] ++ [gc_dest]) (gc_src :: []) true) ∧
     find_moves_go 5 ([] ++ [gc_dest]) (gc_src :: []) true =
       [] ++ find_moves_go 5 (([] ++ [gc_dest]) ++ [gc_src]) []
               (find gc_src.moves_bwd 5).isSome) :=
  ⟨rfl, rfl,
   find_moves_dest_skips_next_source 5 [] [] gc_dest gc_src ⟨4, 1⟩ ⟨6, 1⟩ rfl rfl⟩

/-- Unfolding `find` over a cons cell. -/
theorem find_cons (k₁ : Addr) (v : AddrSize) (m : List (Addr × AddrSize)) (a : Addr) :
    find ((k₁, v) :: m) a = if a = k₁ then some v else find m a := rfl

/-- A key present in a map is still present after inserting another entry
in front of it. -/
theorem find_isSome_cons (k₁ : Addr) (v : AddrSize) (m : List (Addr × AddrSize))
    (a : Addr) (h : (find m a).isSome = true) :
    (find ((k₁, v) :: m) a).isSome = true := by
  rw [find_cons]
  split
  · rfl
  · exact h

/-- `insert_new` fails exactly on a duplicate key. -/
theorem insert_new_eq_none (m : List (Addr × AddrSize)) (k : Addr) (v : AddrSize)
    (h : (find m k).isSome = true) : insert_new m k v = none := by
  unfold insert_new
  cases hf : find m k
  · rw [hf] at h; cases h
  · rfl

/-- A successful `insert_new` conses the new entry and certifies the key
was fresh. -/
theorem insert_new_eq_some (m m' : List (Addr × AddrSize)) (k : Addr) (v : AddrSize)
    (h : insert_new m k v = some m') : m' = (k, v) :: m ∧ find m k = none := by
  unfold insert_new at h
  cases hf : find m k <;> rw [hf] at h
  · exact ⟨(Option.some.inj h).symm, rfl⟩
  · cases h

/-- Once the open era's forward map already holds `f₂` as a key (or its
backward map holds `t₂`), reaching a relocation `f₂ -> t₂` without an
intervening era boundary makes `parse_go` fail. -/
theorem parse_go_dup_aborts (f₂ t₂ s₂ : Nat) (l₃ : List TraceLine) :
    ∀ (l₂ : List TraceLine) (gcs : List GC) (gc : GC),
    ((find gc.moves_fwd f₂).isSome = true ∨ (find gc.moves_bwd t₂).isSome = true) →
    (∀ x ∈ l₂, isBoundary x = false) →
    parse_go (l₂ ++ TraceLine.reloc f₂ t₂ s₂ :: l₃) gcs (some gc) = none := by
  intro l₂
  induction l₂ with
  | nil =>
      intro gcs gc hdisj _
      simp only [List.nil_append, parse_go]
      cases hf : insert_new gc.moves_fwd f₂ ⟨t₂, s₂⟩
      · rfl
      · obtain ⟨-, hfresh⟩ := insert_new_eq_some _ _ _ _ hf
        cases hdisj with
        | inl h => rw [hfresh] at h; cases h
        | inr h => rw [insert_new_eq_none _ _ _ h]
  | cons x l₂ ih =>
      intro gcs gc hdisj hmid
      cases x with
      | gcMark flag => cases hmid (TraceLine.gcMark flag) (List.mem_cons_self _ _)
      | other =>
          simp only [List.cons_append, parse_go]
          exact ih gcs gc hdisj (fun y hy => hmid y (List.mem_cons_of_mem _ hy))
      | reloc f t s =>
          simp only [List.cons_append, parse_go]
          cases hf : insert_new gc.moves_fwd f ⟨t, s⟩
          · rfl
          · cases hb : insert_new gc.moves_bwd t ⟨f, s⟩
            · rfl
            · obtain ⟨hfeq, -⟩ := insert_new_eq_some _ _ _ _ hf
              obtain ⟨hbeq, -⟩ := insert_new_eq_some _ _ _ _ hb
              refine ih gcs _ ?_ (fun y hy => hmid y (List.mem_cons_of_mem _ hy))
              cases hdisj with
              | inl h => exact Or.inl (hfeq ▸ find_isSome_cons _ _ _ _ h)
              | inr h => exact Or.inr (hbeq ▸ find_isSome_cons _ _ _ _ h)

/-- Claim C4: construction fails fatally whenever two relocation records
in the same era (no boundary marker between them) share the same source
address or the same destination address: `parse` returns `none`. -/
theorem parse_same_era_duplicate_aborts
    (l₁ l₂ l₃ : List TraceLine) (f₁ t₁ s₁ f₂ t₂ s₂ : Nat)
    (hmid : ∀ x ∈ l₂, isBoundary x = false)
    (hdup : f₁ = f₂ ∨ t₁ = t₂) :
    parse (l₁ ++ TraceLine.reloc f₁ t₁ s₁ :: (l₂ ++ TraceLine.reloc f₂ t₂ s₂ :: l₃))
      = none := by
  have main : ∀ (l₁ : List TraceLine) (gcs : List GC) (cur : Option GC),
      parse_go (l₁ ++ TraceLine.reloc f₁ t₁ s₁ ::
        (l₂ ++ TraceLine.reloc f₂ t₂ s₂ :: l₃)) gcs cur = none := by
    intro l₁
    induction l₁ with
    | nil =>
        intro gcs cur
        cases cur with
        | none => rfl
        | some gc =>
            simp only [List.nil_append, parse_go]
            cases hf : insert_new gc.moves_fwd f₁ ⟨t₁, s₁⟩
            · rfl
            · cases hb : insert_new gc.moves_bwd t₁ ⟨f₁, s₁⟩
              · rfl
              · obtain ⟨hfeq, -⟩ := insert_new_eq_some _ _ _ _ hf
                obtain ⟨hbeq, -⟩ := insert_new_eq_some _ _ _ _ hb
                refine parse_go_dup_aborts f₂ t₂ s₂ l₃ l₂ gcs _ ?_ hmid
                cases hdup with
                | inl h =>
                    refine Or.inl ?_
                    rw [hfeq, find_cons, ← h]
                    simp
                | inr h =>
                    refine Or.inr ?_
                    rw [hbeq, find_cons, ← h]
                    simp
    | cons x l₁ ih =>
        intro gcs cur
        cases x with
        | gcMark flag => exact ih _ _
        | other => exact ih _ _
        | reloc f t s =>
            cases cur with
            | none => rfl
            | some gc =>
                simp only [List.cons_append, parse_go]
                cases insert_new gc.moves_fwd f ⟨t, s⟩
                · rfl
                · cases insert_new gc.moves_bwd t ⟨f, s⟩
                  · rfl
                  · exact ih _ _
  exact main l₁ [] none

/-- Witness: a concrete one-era trace with two relocations sharing the
source `0x5` is rejected by `parse`. -/
theorem parse_same_era_duplicate_aborts_witness :
    parse [TraceLine.gcMark 1, TraceLine.reloc 5 6 1, TraceLine.reloc 5 7 1]
      = none :=
  parse_same_era_duplicate_aborts [TraceLine.gcMark 1] [] [] 5 6 1 5 7 1
    (fun x hx => absurd hx (List.not_mem_nil x)) (Or.inl rfl)

/-- Invariant A: within one era the forward and backward maps are exact
inverses. -/
def era_inverse (gc : GC) : Prop :=
  ∀ f t s, find gc.moves_fwd f = some ⟨t, s⟩ ↔ find gc.moves_bwd t = some ⟨f, s⟩

/-- A freshly opened era satisfies the inversion invariant. -/
theorem era_inverse_new (major : Bool) : era_inverse (GC.new major) := by
  intro f t s
  constructor <;> intro h <;> cases h

/-- The paired `insert_new` calls of a relocation record preserve the
inversion invariant. -/
theorem era_inverse_insert (gc : GC) (f t s : Nat) (fwd bwd : List (Addr × AddrSize))
    (hf : insert_new gc.moves_fwd f ⟨t, s⟩ = some fwd)
    (hb : insert_new gc.moves_bwd t ⟨f, s⟩ = some bwd)
    (hinv : era_inverse gc) :
    era_inverse { gc with moves_fwd := fwd, moves_bwd := bwd } := by
  obtain ⟨hfeq, hffresh⟩ := insert_new_eq_some _ _ _ _ hf
  obtain ⟨hbeq, hbfresh⟩ := insert_new_eq_some _ _ _ _ hb
  subst hfeq hbeq
  intro a b sz
  constructor
  · intro h
    rw [find_cons] at h
    show find ((t, ⟨f, s⟩) :: gc.moves_bwd) b = some ⟨a, sz⟩
    by_cases haf : a = f
    · rw [if_pos haf] at h
      obtain ⟨hbt, hsz⟩ := AddrSize.mk.injEq _ _ _ _ ▸ Option.some.inj h
      rw [find_cons, if_pos hbt.symm, haf, hsz]
    · rw [if_neg haf] at h
      have hm := (hinv a b sz).mp h
      rw [find_cons]
      by_cases hbt : b = t
      · rw [hbt, hbfresh] at hm; cases hm
      · rw [if_neg hbt]; exact hm
  · intro h
    rw [find_cons] at h
    show find ((f, ⟨t, s⟩) :: gc.moves_fwd) a = some ⟨b, sz⟩
    by_cases hbt : b = t
    · rw [if_pos hbt] at h
      obtain ⟨haf, hsz⟩ := AddrSize.mk.injEq _ _ _ _ ▸ Option.some.inj h
      rw [find_cons, if_pos haf.symm, hbt, hsz]
    · rw [if_neg hbt] at h
      have hm := (hinv a b sz).mpr h
      rw [find_cons]
      by_cases haf : a = f
      · rw [haf, hffresh] at hm; cases hm
      · rw [if_neg haf]; exact hm

/-- Every era reachable in the output of `parse_go` satisfies the
inversion invariant, given that the accumulated and the open era do. -/
theorem parse_go_inverse :
    ∀ (lines : List TraceLine) (gcs : List GC) (cur : Option GC) (out : List GC),
    parse_go lines gcs cur = some out →
    (∀ g ∈ gcs, era_inverse g) →
    (∀ g, cur = some g → era_inverse g) →
    ∀ g ∈ out, era_inverse g := by
  intro lines
  induction lines with
  | nil =>
      intro gcs cur out h hg hc g hgout
      simp only [parse_go] at h
      rw [← Option.some.inj h] at hgout
      rcases List.mem_append.mp hgout with hm | hm
      · exact hg g hm
      · cases cur with
        | none => cases hm
        | some c => rw [List.mem_singleton.mp hm]; exact hc c rfl
  | cons x rest ih =>
      intro gcs cur out h hg hc
      cases x with
      | gcMark flag =>
          simp only [parse_go] at h
          refine ih _ _ _ h ?_ ?_
          · intro g hm
            rcases List.mem_append.mp hm with hm | hm
            · exact hg g hm
            · cases cur with
              | none => cases hm
              | some c => rw [List.mem_singleton.mp hm]; exact hc c rfl
          · intro g hgm
            rw [← Option.some.inj hgm]
            exact era_inverse_new _
      | other => exact ih _ _ _ h hg hc
      | reloc f t s =>
          cases cur with
          | none =>
              simp only [parse_go] at h
              exact Option.noConfusion h
          | some gc =>
              simp only [parse_go] at h
              cases hf : insert_new gc.moves_fwd f ⟨t, s⟩ with
              | none =>
                  rw [hf] at h
                  exact Option.noConfusion h
              | some fwd =>
                  rw [hf] at h
                  cases hb : insert_new gc.moves_bwd t ⟨f, s⟩ with
                  | none =>
                      rw [hb] at h
                      exact Option.noConfusion h
                  | some bwd =>
                      rw [hb] at h
                      refine ih _ _ _ h hg ?_
                      intro g hgm
                      rw [← Option.some.inj hgm]
                      exact era_inverse_insert gc f t s _ _ hf hb (hc gc rfl)

/-- Claim C5: in every era of a store produced by `parse`, the forward
and backward maps are exact inverses: `forward` maps `f` to `(t, s)` iff
`backward` maps `t` to `(f, s)`. -/
theorem parse_era_maps_inverse (trace : List TraceLine) (gcs : List GC)
    (h : parse trace = some gcs) (gc : GC) (hgc : gc ∈ gcs) (f t s : Nat) :
    find gc.moves_fwd f = some ⟨t, s⟩ ↔ find gc.moves_bwd t = some ⟨f, s⟩ :=
  parse_go_inverse trace [] none gcs h
    (fun g hg => absurd hg (List.not_mem_nil g))
    (fun g hg => Option.noConfusion hg) gc hgc f t s

/-- The single era of the double-move trace, as built by `parse`. -/
def gc_dbl : GC :=
  { major := true,
    moves_fwd := [(0x123, ⟨0x124, 2⟩), (0x124, ⟨0x125, 2⟩)],
    moves_bwd := [(0x124, ⟨0x123, 2⟩), (0x125, ⟨0x124, 2⟩)] }

/-- Witness for the inversion invariant on the double-move store. -/
theorem parse_era_maps_inverse_witness :
    parse trace_dbl = some [gc_dbl] ∧ gc_dbl ∈ [gc_dbl] ∧
    (find gc_dbl.moves_fwd 0x123 = some ⟨0x124, 2⟩ ↔
      find gc_dbl.moves_bwd 0x124 = some ⟨0x123, 2⟩) :=
  ⟨rfl, List.mem_singleton.mpr rfl,
   parse_era_maps_inverse trace_dbl [gc_dbl] rfl gc_dbl
     (List.mem_singleton.mpr rfl) 0x123 0x124 2⟩

/-- With no open era, reaching a relocation record with no intervening
boundary marker makes `parse_go` fail. -/
theorem parse_go_no_era_aborts (f t s : Nat) (l₂ : List TraceLine) :
    ∀ (l₁ : List TraceLine), (∀ x ∈ l₁, isBoundary x = false) →
    ∀ gcs, parse_go (l₁ ++ TraceLine.reloc f t s :: l₂) gcs none = none := by
  intro l₁
  induction l₁ with
  | nil => intro _ gcs; rfl
  | cons x rest ih =>
      intro h gcs
      cases x with
      | gcMark flag => cases h (TraceLine.gcMark flag) (List.mem_cons_self _ _)
      | other => exact ih (fun y hy => h y (List.mem_cons_of_mem _ hy)) gcs
      | reloc f₁ t₁ s₁ => rfl

/-- Claim C6: a relocation record that appears in the trace before any
era-boundary marker is fatal: `parse` returns `none`. -/
theorem parse_reloc_before_marker_aborts (l₁ l₂ : List TraceLine) (f t s : Nat)
    (h : ∀ x ∈ l₁, isBoundary x = false) :
    parse (l₁ ++ TraceLine.reloc f t s :: l₂) = none :=
  parse_go_no_era_aborts f t s l₂ l₁ h []

/-- Witness: a trace whose first meaningful line is a relocation is
rejected by `parse`. -/
theorem parse_reloc_before_marker_aborts_witness :
    parse [TraceLine.other, TraceLine.reloc 1 2 3] = none :=
  parse_reloc_before_marker_aborts [TraceLine.other] [] 1 2 3
    (fun x hx => by rw [List.mem_singleton.mp hx]; rfl)

/-- If the queried address occurs in no remaining era's maps, the query
loop yields nothing, whatever the visited slice and skip flag. -/
theorem find_moves_go_absent (addr : Addr) :
    ∀ (rest pre : List GC) (skip : Bool),
    (∀ gc ∈ rest, find gc.moves_fwd addr = none ∧ find gc.moves_bwd addr = none) →
    find_moves_go addr pre rest skip = [] := by
  intro rest
  induction rest with
  | nil => intro pre skip _; rfl
  | cons gc rest ih =>
      intro pre skip h
      have h1 := (h gc (List.mem_cons_self _ _)).1
      have h2 := (h gc (List.mem_cons_self _ _)).2
      simp only [find_moves_go, h1, h2]
      rw [ih (pre ++ [gc]) false (fun g hg => h g (List.mem_cons_of_mem _ hg))]
      cases skip <;> simp

/-- Claim C7: for an address that occurs in no era's forward map and no
era's backward map, `find_moves` returns the empty list of chains. -/
theorem find_moves_absent_returns_empty (gcs : List GC) (addr : Addr)
    (h : ∀ gc ∈ gcs, find gc.moves_fwd addr = none ∧ find gc.moves_bwd addr = none) :
    find_moves gcs addr = [] :=
  find_moves_go_absent addr gcs [] false h

/-- Witness: the store of the empty trace is empty and answers a query
with no chains, and so does a nonempty store queried at an address it
never mentions. -/
theorem find_moves_absent_returns_empty_witness :
    parse [] = some [] ∧
    find_moves [] 0x123 = [] ∧
    find_moves store_dbl 0x999 = [] :=
  ⟨rfl,
   find_moves_absent_returns_empty [] 0x123 (by decide),
   find_moves_absent_returns_empty store_dbl 0x999 (by decide)⟩

/-- The number of era-boundary markers in a trace. -/
def countMarkers : List TraceLine → Nat
  | [] => 0
  | TraceLine.gcMark _ :: rest => countMarkers rest + 1
  | TraceLine.reloc _ _ _ :: rest => countMarkers rest
  | TraceLine.other :: rest => countMarkers rest

/-- Does an era record no move at all? -/
def era_is_empty (gc : GC) : Bool :=
  gc.moves_fwd.isEmpty && gc.moves_bwd.isEmpty

/-- The era count named by the claim, following its words: the store's
count "with an empty trailing era excluded". -/
def store_count_claim (gcs : List GC) : Nat :=
  match gcs.getLast? with
  | none => 0
  | some gc => if era_is_empty gc then gcs.length - 1 else gcs.length

/-- The trace of `parse_test`: two relocations in era 1, then a final
boundary marker opening an era that stays empty. -/
def trace_pt : List TraceLine :=
  [TraceLine.gcMark 1, TraceLine.reloc 0x123 0x124 1,
   TraceLine.reloc 0x122 0x123 2, TraceLine.gcMark 2]

/-- The era store built from `trace_pt`. -/
def store_pt : List GC := (parse trace_pt).getD []

/-- Counterexample to claim C8 as stated: on `trace_pt` there are two
boundary markers, yet the store count with the empty trailing era
excluded is one — `parse` seals the empty trailing era into the store, so
the exclusion breaks the equality. -/
theorem parse_marker_count_claim_cex :
    countMarkers trace_pt = 2 ∧
    Option.map store_count_claim (parse trace_pt) = some 1 ∧
    ¬ Option.map store_count_claim (parse trace_pt)
        = some (countMarkers trace_pt) := by
  refine ⟨rfl, rfl, ?_⟩
  decide

/-- Each marker opens an era and every opened era is sealed into the
store, at the next marker or at end of trace. -/
theorem parse_go_length :
    ∀ (lines : List TraceLine) (gcs : List GC) (cur : Option GC) (out : List GC),
    parse_go lines gcs cur = some out →
    out.length = gcs.length + cur.toList.length + countMarkers lines := by
  intro lines
  induction lines with
  | nil =>
      intro gcs cur out h
      simp only [parse_go] at h
      rw [← Option.some.inj h, List.length_append, countMarkers]
      omega
  | cons x rest ih =>
      intro gcs cur out h
      cases x with
      | gcMark flag =>
          have := ih _ _ _ h
          rw [List.length_append] at this
          simp only [countMarkers, Option.toList, List.length_cons,
            List.length_nil] at this ⊢
          omega
      | other => exact ih _ _ _ h
      | reloc f t s =>
          cases cur with
          | none =>
              simp only [parse_go] at h
              exact Option.noConfusion h
          | some gc =>
              simp only [parse_go] at h
              cases hf : insert_new gc.moves_fwd f ⟨t, s⟩ with
              | none =>
                  rw [hf] at h
                  exact Option.noConfusion h
              | some fwd =>
                  rw [hf] at h
                  cases hb : insert_new gc.moves_bwd t ⟨f, s⟩ with
                  | none =>
                      rw [hb] at h
                      exact Option.noConfusion h
                  | some bwd =>
                      rw [hb] at h
                      have hred : parse_go rest gcs
                          (some { gc with moves_fwd := fwd, moves_bwd := bwd })
                          = some out := h
                      have hlen := ih _ _ _ hred
                      simp only [Option.toList, countMarkers, List.length_cons,
                        List.length_nil] at hlen ⊢
                      omega

/-- Claim C8, amended: for any trace accepted by construction, the number
of era-boundary markers equals the number of sealed eras in the store —
with no exclusion: an empty trailing era is sealed into the store and
counted. -/
theorem parse_marker_count (trace : List TraceLine) (gcs : List GC)
    (h : parse trace = some gcs) : countMarkers trace = gcs.length := by
  have hl := parse_go_length trace [] none gcs h
  simp only [List.length_nil, Option.toList, List.length_nil] at hl
  omega

/-- Witness for the amended era-count theorem on `trace_pt`. -/
theorem parse_marker_count_witness :
    parse trace_pt = some store_pt ∧ countMarkers trace_pt = store_pt.length :=
  ⟨rfl, parse_marker_count trace_pt store_pt rfl⟩

/-- Two eras that agree on both move maps (the major flag is left free). -/
def same_moves (a b : GC) : Prop :=
  a.moves_fwd = b.moves_fwd ∧ a.moves_bwd = b.moves_bwd

/-- `follow_fwd` only reads the forward maps. -/
theorem follow_fwd_congr {l₁ l₂ : List GC}
    (h : List.Forall₂ same_moves l₁ l₂) :
    ∀ a, follow_fwd l₁ a = follow_fwd l₂ a := by
  induction h with
  | nil => intro a; rfl
  | cons hab ht ih =>
      intro a
      simp only [follow_fwd, hab.1, ih a]

/-- The loop of `follow_bwd` only reads the backward maps. -/
theorem follow_bwd_go_congr {l₁ l₂ : List GC}
    (h : List.Forall₂ same_moves l₁ l₂) :
    ∀ a, follow_bwd_go l₁ a = follow_bwd_go l₂ a := by
  induction h with
  | nil => intro a; rfl
  | cons hab ht ih =>
      intro a
      simp only [follow_bwd_go, hab.2, ih a]

/-- `follow_bwd` only reads the backward maps. -/
theorem follow_bwd_congr {l₁ l₂ : List GC}
    (h : List.Forall₂ same_moves l₁ l₂) :
    ∀ a, follow_bwd l₁ a = follow_bwd l₂ a := by
  intro a
  unfold follow_bwd
  exact follow_bwd_go_congr (List.forall₂_reverse_iff.mpr h) a

/-- The query loop only reads the move maps of the eras it visits. -/
theorem find_moves_go_congr (addr : Addr) :
    ∀ {r₁ r₂ : List GC}, List.Forall₂ same_moves r₁ r₂ →
    ∀ {p₁ p₂ : List GC}, List.Forall₂ same_moves p₁ p₂ →
    ∀ skip, find_moves_go addr p₁ r₁ skip = find_moves_go addr p₂ r₂ skip := by
  intro r₁ r₂ h
  induction h with
  | nil => intro p₁ p₂ _ skip; rfl
  | cons hab ht ih =>
      intro p₁ p₂ hp skip
      have hpp := List.rel_append hp (List.Forall₂.cons hab List.Forall₂.nil)
      simp only [find_moves_go, hab.1, hab.2, hp.length_eq,
        follow_bwd_congr hp, follow_fwd_congr ht, ih hpp]

/-- Claim C9: for era stores that are identical except for the major
flags of their eras, `find_moves` returns identical results for every
queried address. -/
theorem find_moves_ignores_major (gcs₁ gcs₂ : List GC)
    (h : List.Forall₂ same_moves gcs₁ gcs₂) (addr : Addr) :
    find_moves gcs₁ addr = find_moves gcs₂ addr :=
  find_moves_go_congr addr h List.Forall₂.nil false

/-- The era of the double-move store with its major flag flipped. -/
def gc_dbl_minor : GC :=
  { major := false, moves_fwd := gc_dbl.moves_fwd, moves_bwd := gc_dbl.moves_bwd }

/-- Witness: flipping the major flag of the double-move era leaves the
query result unchanged. -/
theorem find_moves_ignores_major_witness :
    List.Forall₂ same_moves [gc_dbl] [gc_dbl_minor] ∧
    find_moves [gc_dbl] 0x124 = find_moves [gc_dbl_minor] 0x124 :=
  ⟨List.Forall₂.cons ⟨rfl, rfl⟩ List.Forall₂.nil,
   find_moves_ignores_major [gc_dbl] [gc_dbl_minor]
     (List.Forall₂.cons ⟨rfl, rfl⟩ List.Forall₂.nil) 0x124⟩

/-- Every chain the query loop emits records the queried address and
holds at least two addresses. -/
theorem find_moves_go_shape (addr : Addr) :
    ∀ (rest pre : List GC) (skip : Bool) (m : Moves),
    m ∈ find_moves_go addr pre rest skip → m.loc = addr ∧ 2 ≤ m.moves.length := by
  intro rest
  induction rest with
  | nil =>
      intro pre skip m hm
      exact absurd hm (List.not_mem_nil m)
  | cons gc rest ih =>
      intro pre skip m hm
      simp only [find_moves_go] at hm
      rcases List.mem_append.mp hm with h1 | h2
      · cases skip with
        | true =>
            rw [if_pos rfl] at h1
            exact absurd h1 (List.not_mem_nil m)
        | false =>
            rw [if_neg (by decide)] at h1
            cases hf : find gc.moves_fwd addr with
            | none =>
                rw [hf] at h1
                exact absurd h1 (List.not_mem_nil m)
            | some next =>
                rw [hf] at h1
                rw [List.mem_singleton] at h1
                subst h1
                refine ⟨rfl, ?_⟩
                simp only [List.length_append, List.length_cons, List.length_nil]
                omega
      · cases hb : find gc.moves_bwd addr with
        | none =>
            rw [hb] at h2
            exact ih (pre ++ [gc]) false m h2
        | some prev =>
            simp only [hb] at h2
            rw [List.singleton_append, List.mem_cons] at h2
            rcases h2 with he | hm2
            · subst he
              refine ⟨rfl, ?_⟩
              simp only [List.length_append, List.length_cons, List.length_nil]
              omega
            · exact ih (pre ++ [gc]) true m hm2

/-- Claim C10: every chain returned by `find_moves` stores the queried
address in its `loc` field and its address path holds at least two
addresses. -/
theorem find_moves_chain_shape (gcs : List GC) (addr : Addr) (m : Moves)
    (h : m ∈ find_moves gcs addr) : m.loc = addr ∧ 2 ≤ m.moves.length :=
  find_moves_go_shape addr gcs [] false m h

/-- A concrete chain of the double-move store. -/
def chain_dbl : Moves := { loc := 0x124, first_move := 0, moves := [0x124, 0x125] }

/-- Witness for the chain-shape theorem on the double-move store. -/
theorem find_moves_chain_shape_witness :
    chain_dbl ∈ find_moves store_dbl 0x124 ∧
    chain_dbl.loc = 0x124 ∧ 2 ≤ chain_dbl.moves.length :=
  ⟨by decide, find_moves_chain_shape store_dbl 0x124 chain_dbl (by decide)⟩
